import Mathlib

/-!
Verification of the Zynk → C++ source-to-source compiler (`src/main.rs`).

The pipeline has three stages, faithfully embedded below:
* `tokenizerRun` — the character-level embedding of `Tokenizer::run`.  The
  Rust tokenizer walks the input byte string with one-byte slices, so at the
  character level it only ever operates on single-byte (ASCII) characters;
  `tokRunB` below is the byte-level embedding used to analyse the slicing
  behaviour itself (bounds checks and char-boundary panics), and
  `tokRunB_ascii_agrees` proves the two models agree on all-ASCII inputs —
  the domain on which universally quantified character-level statements are
  stated.
* `parseStmt` / `parserRunAux` — the embedding of `Parser::parse_stmt` and
  `Parser::run`.  The Rust parser mutates a token index and pushes at most one
  statement per `parse_stmt` call; we pass the index and the produced
  statement/error explicitly.
* `genStep` / `generate` — the embedding of `Generator::generate` and the
  free function `include` (called `includeDir` here because `include` is a Lean
  keyword).  Rust `i32` values carry no arithmetic in this program, so they
  are embedded as `Int` (the tokenizer only ever constructs values in
  `[0, 2^31 - 1]`, enforcing the `i32` bound at the only creation site).

Failure embedding: the Rust tokenizer panics on `buffer.parse::<i32>()`
overflow, hence `tokenizerRun` returns an `Option` (`none` = panic).  The
byte-level model distinguishes slicing panics from overflow panics.
-/

namespace Zynk

/-- `UserType` from `main.rs` (`String(String) | Int(i32)`). -/
inductive UserType where
  | string (s : String)
  | int (n : Int)
  deriving DecidableEq, Repr

/-- `TokenType` from `main.rs`.  The Rust variant `Let` is called `letKw`
because `let` is reserved in Lean; `To` is `to`. -/
inductive TokenType where
  | userType (u : UserType)
  | print
  | letKw
  | to
  | openParen
  | closeParen
  | comma
  deriving DecidableEq, Repr

/-- `ParserError` from `main.rs` (`Ok | Err(&str)`). -/
inductive ParserError where
  | ok
  | err (msg : String)
  deriving DecidableEq, Repr

/-- `StmtType` from `main.rs`.  The Rust `Let` variant borrows the key and
value tokens from the token vector; the embedding stores the token values
themselves (the borrow is read-only and the vector is never mutated). -/
inductive StmtType where
  | print (userTypes : List UserType)
  | letStmt (key value : TokenType)
  deriving DecidableEq, Repr

/-! ## Tokenizer, character level

`Tokenizer::run` classifies the current character and greedily consumes
alphanumeric or digit runs.  `buffer.parse::<i32>().unwrap()` panics when a
digit run exceeds `i32` range, which aborts the whole tokenization: the
embedding returns `none` in that case.  On a digit buffer, Rust's
`str::parse::<i32>` succeeds exactly when the denoted value is at most
`i32::MAX = 2147483647` (the buffer is non-empty and has no sign). -/

/-- Numeric value of a digit buffer, as parsed by `buffer.parse::<i32>()`. -/
def digitsToNat (buf : List Char) : Nat :=
  buf.foldl (fun a c => 10 * a + (c.toNat - 48)) 0

/-- `i32::MAX`. -/
def i32Max : Nat := 2147483647

/-- Keyword recognition of `Tokenizer::run` lines 62–70: the buffered
alphanumeric run is compared against `"print"`, `"let"`, `"to"`, otherwise it
becomes a `String` user-type token. -/
def keywordToken (buf : List Char) : TokenType :=
  if buf = [ 'p', 'r', 'i', 'n', 't' ] then TokenType.print
  else if buf = [ 'l', 'e', 't' ] then TokenType.letKw
  else if buf = [ 't', 'o' ] then TokenType.to
  else TokenType.userType (UserType.string (String.mk buf))

/-- `Tokenizer::run` (lines 51–99), character level.  `none` embeds the
`parse::<i32>().unwrap()` panic on overflow.  This model is faithful exactly
on single-byte (ASCII) inputs, where it provably agrees with the byte-level
tokenizer (`tokRunB_ascii_agrees` below): on a multi-byte character the
program panics inside `peek`'s one-byte slice (see `tokRunB` and claim C10),
a failure mode that the character level cannot express — here such a
character would merely fall through to the discard branch.  Theorems that
quantify over all inputs therefore carry an ASCII hypothesis. -/
def tokenizerRun : List Char → Option (List TokenType)
  | [] => some []
  | c :: rest =>
    if c.isAlpha then
      (tokenizerRun (rest.dropWhile Char.isAlphanum)).map
        (fun ts => keywordToken (c :: rest.takeWhile Char.isAlphanum) :: ts)
    else if c.isDigit then
      let n := digitsToNat (c :: rest.takeWhile Char.isDigit)
      if n ≤ i32Max then
        (tokenizerRun (rest.dropWhile Char.isDigit)).map
          (fun ts => TokenType.userType (UserType.int n) :: ts)
      else none
    else if c = '(' then
      (tokenizerRun rest).map (fun ts => TokenType.openParen :: ts)
    else if c = ')' then
      (tokenizerRun rest).map (fun ts => TokenType.closeParen :: ts)
    else if c = ',' then
      (tokenizerRun rest).map (fun ts => TokenType.comma :: ts)
    else
      tokenizerRun rest
termination_by l => l.length
decreasing_by
  all_goals simp only [List.length_cons]
  all_goals have h1 := (List.dropWhile_sublist (l := rest) Char.isAlphanum).length_le
  all_goals have h2 := (List.dropWhile_sublist (l := rest) Char.isDigit).length_le
  all_goals omega

/-- The maximal digit runs of the input, textually: every maximal contiguous
run of digit characters, regardless of what precedes it.  (Spec-side notion
used to state claim C8 as written.) -/
def textualDigitRuns : List Char → List (List Char)
  | [] => []
  | c :: rest =>
    if c.isDigit then
      (c :: rest.takeWhile Char.isDigit) :: textualDigitRuns (rest.dropWhile Char.isDigit)
    else
      textualDigitRuns rest
termination_by l => l.length
decreasing_by
  all_goals simp only [List.length_cons]
  all_goals have h2 := (List.dropWhile_sublist (l := rest) Char.isDigit).length_le
  all_goals omega

/-- The digit runs that the tokenizer's numeric branch actually reaches:
maximal digit runs that start a token.  A digit run immediately following an
alphabetic run is consumed by the identifier branch (the alphanumeric loop)
and never parsed as an integer, so it is skipped here together with the rest
of the alphanumeric run. -/
def numericLexedRuns : List Char → List (List Char)
  | [] => []
  | c :: rest =>
    if c.isAlpha then
      numericLexedRuns (rest.dropWhile Char.isAlphanum)
    else if c.isDigit then
      (c :: rest.takeWhile Char.isDigit) :: numericLexedRuns (rest.dropWhile Char.isDigit)
    else
      numericLexedRuns rest
termination_by l => l.length
decreasing_by
  all_goals simp only [List.length_cons]
  all_goals have h1 := (List.dropWhile_sublist (l := rest) Char.isAlphanum).length_le
  all_goals have h2 := (List.dropWhile_sublist (l := rest) Char.isDigit).length_le
  all_goals omega

/-- The integer payload of a token, if it is an `Int` literal token. -/
def intTokenValue : TokenType → Option Int
  | TokenType.userType (UserType.int n) => some n
  | _ => none

/-! ## Parser

`Parser` keeps a token index (`self.index`), a statement vector and the
borrowed token vector.  `Parser::peek(None)` returns `Some tokens[index]`
when `index < tokens.len()`, else `None`; `accept` increments the index.
`parse_stmt` pushes at most one statement per call, so the embedding returns
the new index, the optionally produced statement and the `ParserError`. -/

/-- The value-collecting loop of the `print` branch (`parse_stmt` lines
138–154): while the current token is a literal, record it and advance; after
each literal, advance past a following comma and continue, otherwise stop.
Returns the number of tokens consumed and the collected values. -/
def parseValues (tokens : List TokenType) (i : Nat) : Nat × List UserType :=
  if h : i < tokens.length then
    match tokens[i] with
    | TokenType.userType x =>
      if h2 : i + 1 < tokens.length then
        match tokens[i + 1] with
        | TokenType.comma =>
          let r := parseValues tokens (i + 2)
          (r.1 + 2, x :: r.2)
        | _ => (1, [ x ])
      else (1, [ x ])
    | _ => (0, [])
  else (0, [])
termination_by tokens.length - i
decreasing_by omega

/-- `Parser::parse_stmt` (lines 129–198).  Returns the parser index after the
call, the statement pushed (if any) and the returned `ParserError`.  The
source unwraps `peek` on entry, so a call at or past the end of input would
panic; `Parser::run` only calls `parse_stmt` while tokens remain, and the
embedding returns the index unchanged in that unreachable case. -/
def parseStmt (tokens : List TokenType) (i : Nat) : Nat × Option StmtType × ParserError :=
  if h : i < tokens.length then
    match tokens[i] with
    | TokenType.print =>
      if h1 : i + 1 < tokens.length then
        match tokens[i + 1] with
        | TokenType.openParen =>
          let r := parseValues tokens (i + 2)
          let j := i + 2 + r.1
          if hj : j < tokens.length then
            match tokens[j] with
            | TokenType.closeParen =>
              (j + 1, some (StmtType.print r.2), ParserError.ok)
            | _ => (j, none, ParserError.err "Expected ')' to end print statement")
          else (j, none, ParserError.err "Expected ')' to end print statement")
        | _ => (i + 1, none, ParserError.err "Expected '(' to start print statement")
      else (i + 1, none, ParserError.err "Expected '(' to start print statement")
    | TokenType.letKw =>
      if h1 : i + 1 < tokens.length then
        match tokens[i + 1] with
        | TokenType.userType (UserType.string s) =>
          if h2 : i + 2 < tokens.length then
            match tokens[i + 2] with
            | TokenType.to =>
              if h3 : i + 3 < tokens.length then
                match tokens[i + 3] with
                | TokenType.userType v =>
                  (i + 4,
                   some (StmtType.letStmt (TokenType.userType (UserType.string s))
                      (TokenType.userType v)),
                   ParserError.ok)
                | _ => (i + 3, none, ParserError.err "Expected value after 'to'")
              else (i + 3, none, ParserError.err "Expected value after 'to'")
            | _ => (i + 2, none, ParserError.err "Expected 'to' after variable name")
          else (i + 2, none, ParserError.err "Expected 'to' after variable name")
        | _ => (i + 1, none, ParserError.err "Expected variable name after 'let'")
      else (i + 1, none, ParserError.err "Expected variable name after 'let'")
    | _ => (i + 1, none, ParserError.ok)
  else (i, none, ParserError.ok)

/-- The error report emitted by one `Parser::run` iteration: `run` prints the
message of an `Err` result and prints nothing on `Ok`. -/
def errToList : ParserError → List String
  | ParserError.ok => []
  | ParserError.err msg => [ msg ]

/-- `Parser::run` (lines 200–209): repeatedly call `parse_stmt` while tokens
remain, printing (here: accumulating) the error messages.  Returns the final
index, the statement list, and the reported errors in order. -/
def parserRunAux (tokens : List TokenType) (i : Nat) (stmts : List StmtType)
    (errs : List String) : Nat × List StmtType × List String :=
  if _h : i < tokens.length then
    let r := parseStmt tokens i
    parserRunAux tokens r.1 (stmts ++ r.2.1.toList) (errs ++ errToList r.2.2)
  else (i, stmts, errs)
termination_by tokens.length - i
decreasing_by
  simp only [parseStmt]
  repeat' split
  all_goals omega

/-- A whole parser run from the start of the token sequence. -/
def parserRun (tokens : List TokenType) : Nat × List StmtType × List String :=
  parserRunAux tokens 0 [] []

/-! ## Generator

`Generator::generate` folds over the statement list in order, accumulating
an include string and a body string, and returns
`format!("\x7b\x7d\n\x7b\x7d", includes, src)`, i.e.
`includes ++ "\n" ++ src`.  The free function `include` deduplicates by a
substring-containment check on the accumulated include string. -/

/-- `str::contains` as used by `fn include`: substring containment. -/
def containsSub (hay needle : List Char) : Bool :=
  needle.isPrefixOf hay ||
    match hay with
    | [] => false
    | _ :: t => containsSub t needle

/-- The free function `include` (lines 232–240), called `includeDir` because
`include` is reserved in Lean: append `"#include " ++ inc ++ "\n"` unless
`inc` already occurs in the accumulated include string. -/
def includeDir (includes : String) (inc : String) : String :=
  if containsSub includes.data inc.data then includes
  else includes ++ "#include " ++ inc ++ "\n"

/-- One iteration of the statement loop of `Generator::generate`
(lines 248–308), acting on the `(includes, src)` accumulator pair. -/
def genStep : String × String → StmtType → String × String
  | (includes, src), StmtType.print userTypes =>
    let includes := includeDir includes "<iostream>"
    let src := src ++ "std::cout<<"
    let src := userTypes.foldl
      (fun s u =>
        match u with
        | UserType.int x => s ++ toString x ++ "<<"
        | UserType.string x => s ++ x ++ "<<")
      src
    (includes, src ++ "std::endl;\n")
  | (includes, src), StmtType.letStmt key value =>
    match key with
    | TokenType.userType (UserType.string keyString) =>
      match value with
      | TokenType.userType (UserType.string valueString) =>
        (includeDir includes "<string>",
         src ++ "std::string " ++ keyString ++ "=" ++ valueString ++ ";\n")
      | TokenType.userType (UserType.int valueInt) =>
        (includes, src ++ "int " ++ keyString ++ "=" ++ toString valueInt ++ ";\n")
      | _ => (includes, src)
    | _ => (includes, src)

/-- `Generator::generate` (lines 243–313): fold `genStep` over the statements
starting from an empty include string and the `main` header, then render
`includes ++ "\n" ++ (src ++ "\x7d")`. -/
def generate (stmts : List StmtType) : String :=
  let r := stmts.foldl genStep ("", "int main() \x7b\n")
  r.1 ++ "\n" ++ (r.2 ++ "\x7d")

/-- The include section of the generated output. -/
def genIncludes (stmts : List StmtType) : String :=
  (stmts.foldl genStep ("", "int main() \x7b\n")).1

/-- The include directive emitted for `Print` statements. -/
def iosInc : String := "#include <iostream>\n"

/-- The include directive emitted for text-valued `Let` statements. -/
def strInc : String := "#include <string>\n"

/-- Number of positions at which `needle` occurs as a contiguous substring of
`hay` (for a non-empty `needle`). -/
def countOccur (needle hay : List Char) : Nat :=
  (if needle.isPrefixOf hay then 1 else 0) +
    match hay with
    | [] => 0
    | _ :: t => countOccur needle t

/-- A token that can start a statement in the grammar: `print` or `let`. -/
def isStmtKeyword (t : TokenType) : Bool :=
  t == TokenType.print || t == TokenType.letKw

/-- The include strings reachable by `Generator::generate`: the directives
for `<iostream>` and `<string>`, each at most once, in either order. -/
def GoodInc (s : String) : Prop :=
  s = "" ∨ s = iosInc ∨ s = strInc ∨ s = iosInc ++ strInc ∨ s = strInc ++ iosInc

instance : DecidablePred GoodInc := fun s => by
  unfold GoodInc; infer_instance

/-! ## Tokenizer, byte level

`Tokenizer::peek` bounds-checks `self.index + offset < self.content.len()`
(the byte length) and then slices `&self.content[i..i+1]`, a one-byte slice
of a UTF-8 string.  String slicing panics when an end of the range is not a
character boundary, so on inputs with multi-byte characters the tokenizer
does not return normally.  Bytes are modelled as `Nat` values `< 256`. -/

/-- Rust `str::is_char_boundary`: position `0`, the end of the string, or a
byte that is not a UTF-8 continuation byte (outside `128..192`). -/
def isCharBoundary (bytes : List Nat) (i : Nat) : Bool :=
  if i = 0 then true
  else if h : i < bytes.length then
    let b := bytes[i]
    decide (b < 128) || decide (192 ≤ b)
  else i == bytes.length

/-- Outcome of a byte-level tokenizer run: normal termination with tokens, a
string-slicing panic, or an integer-overflow panic from `parse::<i32>`. -/
inductive TokResult where
  | ok (tokens : List TokenType)
  | slicePanic
  | overflowPanic
  deriving DecidableEq, Repr

/-- The inner run-consuming loops of `Tokenizer::run` at byte level: while
`peek` returns a character satisfying `p`, accept it into the buffer.  Each
`peek` bounds-checks the index and then takes the one-byte slice
`[i..i+1]`; `Except.error ()` embeds the slicing panic on a non-boundary.
Returns the number of accepted bytes and the buffered characters. -/
def scanRunB (bytes : List Nat) (p : Char → Bool) (i : Nat) : Except Unit (Nat × List Char) :=
  if h : i < bytes.length then
    if isCharBoundary bytes i && isCharBoundary bytes (i + 1) then
      let c := Char.ofNat bytes[i]
      if p c then
        match scanRunB bytes p (i + 1) with
        | Except.ok r => Except.ok (r.1 + 1, c :: r.2)
        | Except.error e => Except.error e
      else Except.ok (0, [])
    else Except.error ()
  else Except.ok (0, [])
termination_by bytes.length - i
decreasing_by omega

/-- `Tokenizer::run` at byte level.  Each iteration peeks at the current
index (bounds check, then one-byte slice — `TokResult.slicePanic` when the
slice hits a non-boundary), classifies the character and consumes it and the
rest of its run exactly as the character-level `tokenizerRun` does. -/
def tokRunB (bytes : List Nat) (i : Nat) : TokResult :=
  if h : i < bytes.length then
    if isCharBoundary bytes i && isCharBoundary bytes (i + 1) then
      let c := Char.ofNat bytes[i]
      if c.isAlpha then
        match scanRunB bytes Char.isAlphanum (i + 1) with
        | Except.error _ => TokResult.slicePanic
        | Except.ok r =>
          match tokRunB bytes (i + 1 + r.1) with
          | TokResult.ok ts => TokResult.ok (keywordToken (c :: r.2) :: ts)
          | other => other
      else if c.isDigit then
        match scanRunB bytes Char.isDigit (i + 1) with
        | Except.error _ => TokResult.slicePanic
        | Except.ok r =>
          let n := digitsToNat (c :: r.2)
          if n ≤ i32Max then
            match tokRunB bytes (i + 1 + r.1) with
            | TokResult.ok ts => TokResult.ok (TokenType.userType (UserType.int n) :: ts)
            | other => other
          else TokResult.overflowPanic
      else if c = '(' then
        match tokRunB bytes (i + 1) with
        | TokResult.ok ts => TokResult.ok (TokenType.openParen :: ts)
        | other => other
      else if c = ')' then
        match tokRunB bytes (i + 1) with
        | TokResult.ok ts => TokResult.ok (TokenType.closeParen :: ts)
        | other => other
      else if c = ',' then
        match tokRunB bytes (i + 1) with
        | TokResult.ok ts => TokResult.ok (TokenType.comma :: ts)
        | other => other
      else tokRunB bytes (i + 1)
    else TokResult.slicePanic
  else TokResult.ok []
termination_by bytes.length - i
decreasing_by all_goals omega

/-! ## Helper lemmas: parser index discipline -/

/-- `parse_stmt` never moves the token index backwards. -/
theorem parseStmt_fst_le (tokens : List TokenType) (i : Nat) :
    i ≤ (parseStmt tokens i).1 := by
  simp only [parseStmt]
  repeat' split
  all_goals simp
  all_goals omega

/-- A `parse_stmt` call made with at least one token remaining advances the
index by at least one: every branch begins by accepting the peeked token. -/
theorem parseStmt_fst_lt (tokens : List TokenType) (i : Nat) (h : i < tokens.length) :
    i < (parseStmt tokens i).1 := by
  simp only [parseStmt]
  repeat' split
  all_goals simp
  all_goals omega

/-- `parse_stmt` pushes at most one statement per call. -/
theorem parseStmt_stmt_le_one (tokens : List TokenType) (i : Nat) :
    (parseStmt tokens i).2.1.toList.length ≤ 1 := by
  simp only [parseStmt]
  repeat' split
  all_goals simp

/-- The parser loop only stops once the cursor has reached the end of the
token sequence. -/
theorem parserRunAux_length_le_fst (tokens : List TokenType) (i : Nat)
    (stmts : List StmtType) (errs : List String) :
    tokens.length ≤ (parserRunAux tokens i stmts errs).1 := by
  induction i, stmts, errs using parserRunAux.induct tokens with
  | case1 i stmts errs h r ih =>
    rw [parserRunAux]
    simpa [h] using ih
  | case2 i stmts errs h =>
    rw [parserRunAux]
    simp [h]
    omega

/-- Counting with a predicate only shrinks when dropping more elements. -/
theorem countP_drop_mono {α : Type} (p : α → Bool) (l : List α) {i j : Nat}
    (h : i ≤ j) : (l.drop j).countP p ≤ (l.drop i).countP p :=
  (List.drop_sublist_drop_left l h).countP_le p

/-- At a statement-start position holding neither `print` nor `let`,
`parse_stmt` just accepts the token: no statement, no error. -/
theorem parseStmt_skip (tokens : List TokenType) (i : Nat) (h : i < tokens.length)
    (hp : tokens[i] ≠ TokenType.print) (hl : tokens[i] ≠ TokenType.letKw) :
    parseStmt tokens i = (i + 1, none, ParserError.ok) := by
  simp only [parseStmt, dif_pos h]

/-- One `parse_stmt` call consumes at least as many `print`/`let` tokens as
the number of statements it produces. -/
theorem parseStmt_count_step (tokens : List TokenType) (i : Nat) (h : i < tokens.length) :
    (parseStmt tokens i).2.1.toList.length
      + ((tokens.drop (parseStmt tokens i).1).countP isStmtKeyword)
      ≤ (tokens.drop i).countP isStmtKeyword := by
  have hdrop : tokens.drop i = tokens[i] :: tokens.drop (i + 1) :=
    List.drop_eq_getElem_cons h
  have hlt : i < (parseStmt tokens i).1 := parseStmt_fst_lt tokens i h
  have hmono : ((tokens.drop (parseStmt tokens i).1).countP isStmtKeyword)
      ≤ ((tokens.drop (i + 1)).countP isStmtKeyword) :=
    countP_drop_mono isStmtKeyword tokens (by omega)
  have hone := parseStmt_stmt_le_one tokens i
  rw [hdrop, List.countP_cons]
  by_cases hp : tokens[i] = TokenType.print
  · have : isStmtKeyword tokens[i] = true := by simp [isStmtKeyword, hp]
    rw [this]
    simp only [if_true]
    omega
  · by_cases hl : tokens[i] = TokenType.letKw
    · have : isStmtKeyword tokens[i] = true := by simp [isStmtKeyword, hl]
      rw [this]
      simp only [if_true]
      omega
    · have hk : isStmtKeyword tokens[i] = false := by
        simp [isStmtKeyword, hp, hl]
      rw [hk]
      rw [parseStmt_skip tokens i h hp hl] at hmono ⊢
      simp only [Option.toList_none, List.length_nil, if_neg Bool.false_ne_true]
      omega

/-- Run-level statement bound: the parser produces at most one statement per
`print`/`let` token remaining in the input. -/
theorem parserRunAux_count (tokens : List TokenType) (i : Nat)
    (stmts : List StmtType) (errs : List String) :
    (parserRunAux tokens i stmts errs).2.1.length
      ≤ stmts.length + (tokens.drop i).countP isStmtKeyword := by
  induction i, stmts, errs using parserRunAux.induct tokens with
  | case1 i stmts errs h r ih =>
    rw [parserRunAux]
    simp only [dif_pos h]
    have hr : r = parseStmt tokens i := rfl
    rw [hr] at ih
    refine le_trans ih ?_
    have step := parseStmt_count_step tokens i h
    simp only [List.length_append]
    omega
  | case2 i stmts errs h =>
    rw [parserRunAux]
    simp [h]

/-- `countP` for the statement-keyword predicate is the number of `print`
tokens plus the number of `let` tokens. -/
theorem countP_isStmtKeyword (l : List TokenType) :
    l.countP isStmtKeyword = l.count TokenType.print + l.count TokenType.letKw := by
  induction l with
  | nil => simp
  | cons a t ih =>
    cases a <;> simp [isStmtKeyword, List.countP_cons, List.count_cons, ih] <;> omega

/-- `keywordToken` never yields an integer literal token. -/
theorem intTokenValue_keywordToken (buf : List Char) :
    intTokenValue (keywordToken buf) = none := by
  simp only [keywordToken]
  repeat' split
  all_goals rfl

/-- The tokenizer succeeds exactly when every digit run reached by its
numeric branch denotes a value within `i32` range. -/
theorem tokenizerRun_isSome_iff (l : List Char) :
    (tokenizerRun l).isSome = true ↔
      ∀ r ∈ numericLexedRuns l, digitsToNat r ≤ i32Max := by
  induction l using tokenizerRun.induct with
  | case1 => simp [tokenizerRun, numericLexedRuns]
  | case2 c rest hAlpha ih =>
    simp only [tokenizerRun, numericLexedRuns, if_pos hAlpha]
    simpa using ih
  | case3 c rest hAlpha hDigit n hle ih =>
    simp only [tokenizerRun, numericLexedRuns, if_neg hAlpha, if_pos hDigit]
    simp only [if_pos hle]
    simp [hle, ih]
  | case4 c rest hAlpha hDigit n hgt =>
    simp only [tokenizerRun, numericLexedRuns, if_neg hAlpha, if_pos hDigit]
    simp only [if_neg hgt]
    simp [hgt]
  | case5 rest h1 h2 ih =>
    simp only [tokenizerRun, numericLexedRuns, if_neg h1, if_neg h2, if_pos rfl]
    simpa using ih
  | case6 rest h1 h2 h3 ih =>
    simp only [tokenizerRun, numericLexedRuns, if_neg h1, if_neg h2, if_neg h3, if_pos rfl]
    simpa using ih
  | case7 rest h1 h2 h3 h4 ih =>
    simp only [tokenizerRun, numericLexedRuns, if_neg h1, if_neg h2, if_neg h3, if_neg h4,
      if_pos rfl]
    simpa using ih
  | case8 c rest h1 h2 h3 h4 h5 ih =>
    simp only [tokenizerRun, numericLexedRuns, if_neg h1, if_neg h2, if_neg h3, if_neg h4,
      if_neg h5]
    simpa using ih

/-- On success, the integer literal tokens, in order, are exactly the values
of the digit runs reached by the numeric branch. -/
theorem tokenizerRun_ints (l : List Char) :
    ∀ ts, tokenizerRun l = some ts →
      ts.filterMap intTokenValue
        = (numericLexedRuns l).map (fun r => ((digitsToNat r : Nat) : Int)) := by
  induction l using tokenizerRun.induct with
  | case1 =>
    intro ts hts
    simp only [tokenizerRun, Option.some.injEq] at hts
    simp [← hts, numericLexedRuns]
  | case2 c rest hAlpha ih =>
    intro ts hts
    simp only [tokenizerRun, if_pos hAlpha, Option.map_eq_some'] at hts
    obtain ⟨ts1, hts1, rfl⟩ := hts
    simp only [numericLexedRuns, if_pos hAlpha]
    simp [List.filterMap_cons, intTokenValue_keywordToken, ih ts1 hts1]
  | case3 c rest hAlpha hDigit n hle ih =>
    intro ts hts
    simp only [tokenizerRun, if_neg hAlpha, if_pos hDigit, if_pos hle,
      Option.map_eq_some'] at hts
    obtain ⟨ts1, hts1, rfl⟩ := hts
    simp only [numericLexedRuns, if_neg hAlpha, if_pos hDigit]
    simp [List.filterMap_cons, intTokenValue, ih ts1 hts1]
  | case4 c rest hAlpha hDigit n hgt =>
    intro ts hts
    simp only [tokenizerRun, if_neg hAlpha, if_pos hDigit, if_neg hgt] at hts
    exact absurd hts (by simp)
  | case5 rest h1 h2 ih =>
    intro ts hts
    simp only [tokenizerRun, if_neg h1, if_neg h2, if_pos rfl] at hts
    cases htr : tokenizerRun rest with
    | none => rw [htr] at hts; simp at hts
    | some ts1 =>
      rw [htr] at hts
      simp at hts
      subst hts
      simp only [numericLexedRuns, if_neg h1, if_neg h2, if_pos rfl]
      simp [List.filterMap_cons, intTokenValue, ih ts1 htr]
  | case6 rest h1 h2 h3 ih =>
    intro ts hts
    simp only [tokenizerRun, if_neg h1, if_neg h2, if_neg h3, if_pos rfl] at hts
    cases htr : tokenizerRun rest with
    | none => rw [htr] at hts; simp at hts
    | some ts1 =>
      rw [htr] at hts
      simp at hts
      subst hts
      simp only [numericLexedRuns, if_neg h1, if_neg h2, if_neg h3, if_pos rfl]
      simp [List.filterMap_cons, intTokenValue, ih ts1 htr]
  | case7 rest h1 h2 h3 h4 ih =>
    intro ts hts
    simp only [tokenizerRun, if_neg h1, if_neg h2, if_neg h3, if_neg h4, if_pos rfl] at hts
    cases htr : tokenizerRun rest with
    | none => rw [htr] at hts; simp at hts
    | some ts1 =>
      rw [htr] at hts
      simp at hts
      subst hts
      simp only [numericLexedRuns, if_neg h1, if_neg h2, if_neg h3, if_neg h4, if_pos rfl]
      simp [List.filterMap_cons, intTokenValue, ih ts1 htr]
  | case8 c rest h1 h2 h3 h4 h5 ih =>
    intro ts hts
    simp only [tokenizerRun, if_neg h1, if_neg h2, if_neg h3, if_neg h4, if_neg h5] at hts
    simp only [numericLexedRuns, if_neg h1, if_neg h2, if_neg h3, if_neg h4, if_neg h5]
    exact ih ts hts

/-- Every position up to the length is a char boundary of an all-ASCII byte
string. -/
theorem isCharBoundary_ascii (bytes : List Nat) (hb : ∀ b ∈ bytes, b < 128)
    (i : Nat) (hile : i ≤ bytes.length) : isCharBoundary bytes i = true := by
  unfold isCharBoundary
  split
  · rfl
  · split
    · rename_i hlt
      have := hb _ (List.getElem_mem hlt)
      simp
      omega
    · rename_i hi hlt
      simp
      omega

/-- On all-ASCII input the inner scanning loop never hits a slicing panic. -/
theorem scanRunB_ne_error_ascii (bytes : List Nat) (hb : ∀ b ∈ bytes, b < 128)
    (p : Char → Bool) (i : Nat) (e : Unit) : scanRunB bytes p i ≠ Except.error e := by
  induction i using scanRunB.induct bytes p with
  | case1 x h hbound c hp r hrec ih =>
    rw [scanRunB.eq_def]
    simp [dif_pos h, hbound, hp, hrec]
  | case2 x h hbound c hp e2 hrec ih =>
    exact absurd hrec ih
  | case3 x h hbound c hp =>
    rw [scanRunB.eq_def]
    simp [dif_pos h, hbound, hp]
  | case4 x h hbound =>
    have b1 := isCharBoundary_ascii bytes hb x (by omega)
    have b2 := isCharBoundary_ascii bytes hb (x + 1) (by omega)
    simp [b1, b2] at hbound
  | case5 x h =>
    rw [scanRunB.eq_def]
    simp [dif_neg h]

/-- On all-ASCII input the byte-level tokenizer never fails from slicing. -/
theorem tokRunB_ascii_no_slice (bytes : List Nat) (hb : ∀ b ∈ bytes, b < 128)
    (i : Nat) : tokRunB bytes i ≠ TokResult.slicePanic := by
  induction i using tokRunB.induct bytes with
  | case1 x h hbound c hAlpha e hrec =>
    exact absurd hrec (scanRunB_ne_error_ascii bytes hb Char.isAlphanum (x + 1) e)
  | case2 x h hbound c hAlpha r hscan ts hrec ih =>
    rw [tokRunB.eq_def]
    simp [dif_pos h, hbound, hAlpha, hscan, hrec]
  | case3 x h hbound c hAlpha r hscan hnotok ih =>
    rw [tokRunB.eq_def]
    simp only [dif_pos h, if_pos hbound]
    simp only [if_pos hAlpha, hscan]
    cases hres : tokRunB bytes (x + 1 + r.1) with
    | ok ts => exact absurd hres (by intro hc; exact hnotok ts hc)
    | slicePanic => exact absurd hres ih
    | overflowPanic => simp [hres]
  | case4 x h hbound c hAlpha hDigit e hrec =>
    exact absurd hrec (scanRunB_ne_error_ascii bytes hb Char.isDigit (x + 1) e)
  | case5 x h hbound c hAlpha hDigit r hscan n hle ts hrec ih =>
    rw [tokRunB.eq_def]
    simp [dif_pos h, hbound, hAlpha, hDigit, hscan, hle, hrec]
  | case6 x h hbound c hAlpha hDigit r hscan n hle hnotok ih =>
    rw [tokRunB.eq_def]
    simp only [dif_pos h, if_pos hbound]
    simp only [if_neg hAlpha, if_pos hDigit, hscan]
    simp only [if_pos hle]
    cases hres : tokRunB bytes (x + 1 + r.1) with
    | ok ts => exact absurd hres (by intro hc; exact hnotok ts hc)
    | slicePanic => exact absurd hres ih
    | overflowPanic => simp [hres]
  | case7 x h hbound c hAlpha hDigit r hscan n hgt =>
    rw [tokRunB.eq_def]
    simp [dif_pos h, hbound, hAlpha, hDigit, hscan, hgt]
  | case8 x h hbound c hAlpha hDigit hParen ts hrec ih =>
    have hParen2 : Char.ofNat bytes[x] = '(' := hParen
    rw [tokRunB.eq_def]
    simp [dif_pos h, hbound, hAlpha, hDigit, hParen2, hrec]
  | case9 x h hbound c hAlpha hDigit hParen hnotok ih =>
    rw [tokRunB.eq_def]
    simp only [dif_pos h, if_pos hbound]
    simp only [if_neg hAlpha, if_neg hDigit, if_pos hParen]
    cases hres : tokRunB bytes (x + 1) with
    | ok ts => exact absurd hres (by intro hc; exact hnotok ts hc)
    | slicePanic => exact absurd hres ih
    | overflowPanic => simp [hres]
  | case10 x h hbound c hAlpha hDigit hParen hClose ts hrec ih =>
    have hClose2 : Char.ofNat bytes[x] = ')' := hClose
    rw [tokRunB.eq_def]
    simp [dif_pos h, hbound, hAlpha, hDigit, hParen, hClose2, hrec]
  | case11 x h hbound c hAlpha hDigit hParen hClose hnotok ih =>
    rw [tokRunB.eq_def]
    simp only [dif_pos h, if_pos hbound]
    simp only [if_neg hAlpha, if_neg hDigit, if_neg hParen, if_pos hClose]
    cases hres : tokRunB bytes (x + 1) with
    | ok ts => exact absurd hres (by intro hc; exact hnotok ts hc)
    | slicePanic => exact absurd hres ih
    | overflowPanic => simp [hres]
  | case12 x h hbound c hAlpha hDigit hParen hClose hComma ts hrec ih =>
    have hComma2 : Char.ofNat bytes[x] = ',' := hComma
    rw [tokRunB.eq_def]
    simp [dif_pos h, hbound, hAlpha, hDigit, hParen, hClose, hComma2, hrec]
  | case13 x h hbound c hAlpha hDigit hParen hClose hComma hnotok ih =>
    rw [tokRunB.eq_def]
    simp only [dif_pos h, if_pos hbound]
    simp only [if_neg hAlpha, if_neg hDigit, if_neg hParen, if_neg hClose, if_pos hComma]
    cases hres : tokRunB bytes (x + 1) with
    | ok ts => exact absurd hres (by intro hc; exact hnotok ts hc)
    | slicePanic => exact absurd hres ih
    | overflowPanic => simp [hres]
  | case14 x h hbound c hAlpha hDigit hParen hClose hComma ih =>
    rw [tokRunB.eq_def]
    simp only [dif_pos h, if_pos hbound]
    simp only [if_neg hAlpha, if_neg hDigit, if_neg hParen, if_neg hClose, if_neg hComma]
    exact ih
  | case15 x h hbound =>
    have b1 := isCharBoundary_ascii bytes hb x (by omega)
    have b2 := isCharBoundary_ascii bytes hb (x + 1) (by omega)
    simp [b1, b2] at hbound
  | case16 x h =>
    rw [tokRunB.eq_def]
    simp [dif_neg h]

/-- Adding the streaming-output include preserves the reachable-includes invariant. -/
theorem includeDir_good_ios (s : String) (hs : GoodInc s) :
    GoodInc (includeDir s "<iostream>") := by
  rcases hs with h | h | h | h | h
  all_goals subst h
  all_goals decide

/-- Adding the text-type include preserves the reachable-includes invariant. -/
theorem includeDir_good_str (s : String) (hs : GoodInc s) :
    GoodInc (includeDir s "<string>") := by
  rcases hs with h | h | h | h | h
  all_goals subst h
  all_goals decide

/-- Each generator step preserves the reachable-includes invariant. -/
theorem genStep_good (p : String × String) (st : StmtType) (hp : GoodInc p.1) :
    GoodInc (genStep p st).1 := by
  obtain ⟨inc, src⟩ := p
  rcases st with vs | ⟨k, v⟩
  · exact includeDir_good_ios inc hp
  · rcases k with ku | _ | _ | _ | _ | _ | _
    · rcases ku with ks | kn
      · rcases v with vu | _ | _ | _ | _ | _ | _
        · rcases vu with vs2 | vn
          · exact includeDir_good_str inc hp
          · exact hp
        · exact hp
        · exact hp
        · exact hp
        · exact hp
        · exact hp
        · exact hp
      · exact hp
    · exact hp
    · exact hp
    · exact hp
    · exact hp
    · exact hp
    · exact hp

/-- The generator fold preserves the reachable-includes invariant. -/
theorem foldl_genStep_good (stmts : List StmtType) :
    ∀ p : String × String, GoodInc p.1 → GoodInc ((stmts.foldl genStep p).1) := by
  induction stmts with
  | nil => intro p hp; simpa using hp
  | cons st rest ih =>
    intro p hp
    simpa [List.foldl_cons] using ih (genStep p st) (genStep_good p st hp)

/-- The include section of any generated program is a reachable include string. -/
theorem genIncludes_good (stmts : List StmtType) : GoodInc (genIncludes stmts) :=
  foldl_genStep_good stmts ("", "int main() \x7b\n") (Or.inl rfl)

/-- Every reachable include string contains each directive at most once. -/
theorem goodInc_count_le_one (s : String) (hs : GoodInc s) :
    countOccur iosInc.data s.data ≤ 1 ∧ countOccur strInc.data s.data ≤ 1 := by
  rcases hs with h | h | h | h | h
  all_goals subst h
  all_goals decide

/-- Dropping the length of the matched prefix is the same as `dropWhile`. -/
theorem drop_length_takeWhile {α : Type} (p : α → Bool) (l : List α) :
    l.drop (l.takeWhile p).length = l.dropWhile p := by
  induction l with
  | nil => rfl
  | cons a t ih =>
    by_cases h : p a
    · simpa [List.takeWhile_cons_of_pos h, List.dropWhile_cons_of_pos h] using ih
    · simp [List.takeWhile_cons_of_neg h, List.dropWhile_cons_of_neg h]

/-- On all-ASCII input the byte-level inner scanning loop returns exactly the
`takeWhile` run of the corresponding character suffix, with its length as the
number of accepted bytes. -/
theorem scanRunB_ascii_spec (bytes : List Nat) (hb : ∀ b ∈ bytes, b < 128)
    (p : Char → Bool) (i : Nat) :
    scanRunB bytes p i
      = Except.ok ((((bytes.drop i).map Char.ofNat).takeWhile p).length,
          ((bytes.drop i).map Char.ofNat).takeWhile p) := by
  induction i using scanRunB.induct bytes p with
  | case1 x h hbound c hp r hrec ih =>
    have hcons : (bytes.drop x).map Char.ofNat
        = Char.ofNat bytes[x] :: (bytes.drop (x + 1)).map Char.ofNat := by
      rw [List.drop_eq_getElem_cons h, List.map_cons]
    rw [scanRunB.eq_def]
    simp only [dif_pos h, if_pos hbound, if_pos hp]
    rw [ih, hcons]
    have hp3 : p (Char.ofNat bytes[x]) = true := hp
    simp [List.takeWhile_cons_of_pos hp3]
  | case2 x h hbound c hp e2 hrec ih =>
    exact absurd hrec (scanRunB_ne_error_ascii bytes hb p (x + 1) e2)
  | case3 x h hbound c hp =>
    have hcons : (bytes.drop x).map Char.ofNat
        = Char.ofNat bytes[x] :: (bytes.drop (x + 1)).map Char.ofNat := by
      rw [List.drop_eq_getElem_cons h, List.map_cons]
    rw [scanRunB.eq_def]
    simp only [dif_pos h, if_pos hbound, if_neg hp]
    rw [hcons]
    have hp3 : ¬ p (Char.ofNat bytes[x]) = true := hp
    simp [List.takeWhile_cons_of_neg hp3]
  | case4 x h hbound =>
    have b1 := isCharBoundary_ascii bytes hb x (by omega)
    have b2 := isCharBoundary_ascii bytes hb (x + 1) (by omega)
    simp [b1, b2] at hbound
  | case5 x h =>
    rw [scanRunB.eq_def]
    simp only [dif_neg h]
    rw [List.drop_eq_nil_of_le (by omega)]
    simp

/-- Inverting the success case of the panic-or-tokens elimination. -/
theorem elim_eq_ok {o : Option (List TokenType)} {ts : List TokenType}
    (h : o.elim TokResult.overflowPanic TokResult.ok = TokResult.ok ts) : o = some ts := by
  cases o with
  | none => simp [Option.elim] at h
  | some a => simpa [Option.elim] using h

/-- Inverting the overflow case of the panic-or-tokens elimination. -/
theorem elim_eq_overflow {o : Option (List TokenType)}
    (h : o.elim TokResult.overflowPanic TokResult.ok = TokResult.overflowPanic) : o = none := by
  cases o with
  | none => rfl
  | some a => simp [Option.elim] at h

/-- Dropping further bytes commutes with mapping bytes to characters. -/
theorem map_drop_shift (bytes : List Nat) (x k : Nat) :
    (bytes.drop (x + 1 + k)).map Char.ofNat
      = ((bytes.drop (x + 1)).map Char.ofNat).drop k := by
  rw [← List.map_drop, List.drop_drop]

/-- Fidelity of the character-level model on its intended domain: on
all-ASCII byte strings the byte-level tokenizer `tokRunB` — which models
`Tokenizer::peek`'s slicing exactly — and the character-level `tokenizerRun`
agree, with a `none` result corresponding to the overflow panic.  On inputs
with multi-byte characters the two differ: the program slice-panics (claim
C10) while the character-level model does not, so character-level statements
about all inputs are meaningful only under an ASCII hypothesis. -/
theorem tokRunB_ascii_agrees (bytes : List Nat) (hb : ∀ b ∈ bytes, b < 128) (i : Nat) :
    tokRunB bytes i
      = (tokenizerRun ((bytes.drop i).map Char.ofNat)).elim
          TokResult.overflowPanic TokResult.ok := by
  induction i using tokRunB.induct bytes with
  | case1 x h hbound c hAlpha e hrec =>
    exact absurd hrec (scanRunB_ne_error_ascii bytes hb Char.isAlphanum (x + 1) e)
  | case2 x h hbound c hAlpha r hscan ts hrec ih =>
    have hcons : (bytes.drop x).map Char.ofNat
        = Char.ofNat bytes[x] :: (bytes.drop (x + 1)).map Char.ofNat := by
      rw [List.drop_eq_getElem_cons h, List.map_cons]
    obtain ⟨k, cs⟩ := r
    have hspec := scanRunB_ascii_spec bytes hb Char.isAlphanum (x + 1)
    rw [hscan] at hspec
    obtain ⟨hk, hcs⟩ := Prod.mk.injEq .. ▸ Except.ok.inj hspec
    subst hk
    subst hcs
    have hshift := map_drop_shift bytes x
        (((bytes.drop (x + 1)).map Char.ofNat).takeWhile Char.isAlphanum).length
    rw [drop_length_takeWhile] at hshift
    rw [hrec] at ih
    rw [hshift] at ih
    have hsome := elim_eq_ok ih.symm
    rw [List.map_drop] at hsome
    rw [tokRunB.eq_def]
    simp only [dif_pos h, if_pos hbound, if_pos hAlpha, hscan, hrec]
    rw [hcons]
    have hAlpha2 : (Char.ofNat bytes[x]).isAlpha = true := hAlpha
    simp [tokenizerRun, hAlpha2, hsome]
  | case3 x h hbound c hAlpha r hscan hnotok ih =>
    have hcons : (bytes.drop x).map Char.ofNat
        = Char.ofNat bytes[x] :: (bytes.drop (x + 1)).map Char.ofNat := by
      rw [List.drop_eq_getElem_cons h, List.map_cons]
    obtain ⟨k, cs⟩ := r
    have hspec := scanRunB_ascii_spec bytes hb Char.isAlphanum (x + 1)
    rw [hscan] at hspec
    obtain ⟨hk, hcs⟩ := Prod.mk.injEq .. ▸ Except.ok.inj hspec
    subst hk
    subst hcs
    have hshift := map_drop_shift bytes x
        (((bytes.drop (x + 1)).map Char.ofNat).takeWhile Char.isAlphanum).length
    rw [drop_length_takeWhile] at hshift
    rw [hshift] at ih
    rw [tokRunB.eq_def]
    simp only [dif_pos h, if_pos hbound, if_pos hAlpha, hscan]
    rw [hcons]
    have hAlpha2 : (Char.ofNat bytes[x]).isAlpha = true := hAlpha
    cases hres : tokRunB bytes
        (x + 1 + (((bytes.drop (x + 1)).map Char.ofNat).takeWhile Char.isAlphanum).length) with
    | ok ts2 => exact absurd hres (fun hc => hnotok ts2 hc)
    | slicePanic => exact absurd hres (tokRunB_ascii_no_slice bytes hb _)
    | overflowPanic =>
      rw [hres] at ih
      have hnone := elim_eq_overflow ih.symm
      rw [List.map_drop] at hnone
      simp [tokenizerRun, hAlpha2, hnone]
  | case4 x h hbound c hAlpha hDigit e hrec =>
    exact absurd hrec (scanRunB_ne_error_ascii bytes hb Char.isDigit (x + 1) e)
  | case5 x h hbound c hAlpha hDigit r hscan n hle ts hrec ih =>
    have hcons : (bytes.drop x).map Char.ofNat
        = Char.ofNat bytes[x] :: (bytes.drop (x + 1)).map Char.ofNat := by
      rw [List.drop_eq_getElem_cons h, List.map_cons]
    obtain ⟨k, cs⟩ := r
    have hspec := scanRunB_ascii_spec bytes hb Char.isDigit (x + 1)
    rw [hscan] at hspec
    obtain ⟨hk, hcs⟩ := Prod.mk.injEq .. ▸ Except.ok.inj hspec
    subst hk
    subst hcs
    have hshift := map_drop_shift bytes x
        (((bytes.drop (x + 1)).map Char.ofNat).takeWhile Char.isDigit).length
    rw [drop_length_takeWhile] at hshift
    rw [hrec] at ih
    rw [hshift] at ih
    have hsome := elim_eq_ok ih.symm
    rw [List.map_drop] at hsome
    rw [tokRunB.eq_def]
    simp only [dif_pos h, if_pos hbound, if_neg hAlpha, if_pos hDigit, hscan, if_pos hle, hrec]
    rw [hcons]
    have hAlpha2 : ¬ (Char.ofNat bytes[x]).isAlpha = true := hAlpha
    have hDigit2 : (Char.ofNat bytes[x]).isDigit = true := hDigit
    have hle2 : digitsToNat (Char.ofNat bytes[x]
        :: List.takeWhile Char.isDigit (List.drop (x + 1) (List.map Char.ofNat bytes)))
        ≤ i32Max := by
      have h0 : digitsToNat (Char.ofNat bytes[x]
          :: List.takeWhile Char.isDigit (List.map Char.ofNat (List.drop (x + 1) bytes)))
          ≤ i32Max := hle
      simp only [List.map_drop] at h0
      exact h0
    simp [tokenizerRun, hAlpha2, hDigit2, hsome, hle2]
  | case6 x h hbound c hAlpha hDigit r hscan n hle hnotok ih =>
    have hcons : (bytes.drop x).map Char.ofNat
        = Char.ofNat bytes[x] :: (bytes.drop (x + 1)).map Char.ofNat := by
      rw [List.drop_eq_getElem_cons h, List.map_cons]
    obtain ⟨k, cs⟩ := r
    have hspec := scanRunB_ascii_spec bytes hb Char.isDigit (x + 1)
    rw [hscan] at hspec
    obtain ⟨hk, hcs⟩ := Prod.mk.injEq .. ▸ Except.ok.inj hspec
    subst hk
    subst hcs
    have hshift := map_drop_shift bytes x
        (((bytes.drop (x + 1)).map Char.ofNat).takeWhile Char.isDigit).length
    rw [drop_length_takeWhile] at hshift
    rw [hshift] at ih
    rw [tokRunB.eq_def]
    simp only [dif_pos h, if_pos hbound, if_neg hAlpha, if_pos hDigit, hscan, if_pos hle]
    rw [hcons]
    have hAlpha2 : ¬ (Char.ofNat bytes[x]).isAlpha = true := hAlpha
    have hDigit2 : (Char.ofNat bytes[x]).isDigit = true := hDigit
    cases hres : tokRunB bytes
        (x + 1 + (((bytes.drop (x + 1)).map Char.ofNat).takeWhile Char.isDigit).length) with
    | ok ts2 => exact absurd hres (fun hc => hnotok ts2 hc)
    | slicePanic => exact absurd hres (tokRunB_ascii_no_slice bytes hb _)
    | overflowPanic =>
      rw [hres] at ih
      have hnone := elim_eq_overflow ih.symm
      rw [List.map_drop] at hnone
      simp [tokenizerRun, hAlpha2, hDigit2, hnone, hle]
  | case7 x h hbound c hAlpha hDigit r hscan n hgt =>
    have hcons : (bytes.drop x).map Char.ofNat
        = Char.ofNat bytes[x] :: (bytes.drop (x + 1)).map Char.ofNat := by
      rw [List.drop_eq_getElem_cons h, List.map_cons]
    obtain ⟨k, cs⟩ := r
    have hspec := scanRunB_ascii_spec bytes hb Char.isDigit (x + 1)
    rw [hscan] at hspec
    obtain ⟨hk, hcs⟩ := Prod.mk.injEq .. ▸ Except.ok.inj hspec
    subst hk
    subst hcs
    rw [tokRunB.eq_def]
    simp only [dif_pos h, if_pos hbound, if_neg hAlpha, if_pos hDigit, hscan, if_neg hgt]
    rw [hcons]
    have hAlpha2 : ¬ (Char.ofNat bytes[x]).isAlpha = true := hAlpha
    have hDigit2 : (Char.ofNat bytes[x]).isDigit = true := hDigit
    have hgt2 : ¬ digitsToNat (Char.ofNat bytes[x]
        :: List.takeWhile Char.isDigit (List.drop (x + 1) (List.map Char.ofNat bytes)))
        ≤ i32Max := by
      have h0 : ¬ digitsToNat (Char.ofNat bytes[x]
          :: List.takeWhile Char.isDigit (List.map Char.ofNat (List.drop (x + 1) bytes)))
          ≤ i32Max := hgt
      simp only [List.map_drop] at h0
      exact h0
    simp [tokenizerRun, hAlpha2, hDigit2, hgt2]
  | case8 x h hbound c hAlpha hDigit hParen ts hrec ih =>
    have hcons : (bytes.drop x).map Char.ofNat
        = Char.ofNat bytes[x] :: (bytes.drop (x + 1)).map Char.ofNat := by
      rw [List.drop_eq_getElem_cons h, List.map_cons]
    rw [hrec] at ih
    have hsome := elim_eq_ok ih.symm
    rw [List.map_drop] at hsome
    rw [tokRunB.eq_def]
    have hParen2 : Char.ofNat bytes[x] = '(' := hParen
    simp only [dif_pos h, if_pos hbound, if_neg hAlpha, if_neg hDigit, hParen2, if_pos rfl, hrec]
    rw [hcons, hParen2]
    have hAlpha2 : ¬ ('(' : Char).isAlpha = true := hParen2 ▸ hAlpha
    have hDigit2 : ¬ ('(' : Char).isDigit = true := hParen2 ▸ hDigit
    simp [tokenizerRun, hAlpha2, hDigit2, hsome]
  | case9 x h hbound c hAlpha hDigit hParen hnotok ih =>
    have hcons : (bytes.drop x).map Char.ofNat
        = Char.ofNat bytes[x] :: (bytes.drop (x + 1)).map Char.ofNat := by
      rw [List.drop_eq_getElem_cons h, List.map_cons]
    rw [tokRunB.eq_def]
    have hParen2 : Char.ofNat bytes[x] = '(' := hParen
    simp only [dif_pos h, if_pos hbound, if_neg hAlpha, if_neg hDigit, hParen2, if_pos rfl]
    rw [hcons, hParen2]
    have hAlpha2 : ¬ ('(' : Char).isAlpha = true := hParen2 ▸ hAlpha
    have hDigit2 : ¬ ('(' : Char).isDigit = true := hParen2 ▸ hDigit
    cases hres : tokRunB bytes (x + 1) with
    | ok ts2 => exact absurd hres (fun hc => hnotok ts2 hc)
    | slicePanic => exact absurd hres (tokRunB_ascii_no_slice bytes hb _)
    | overflowPanic =>
      rw [hres] at ih
      have hnone := elim_eq_overflow ih.symm
      rw [List.map_drop] at hnone
      simp [tokenizerRun, hAlpha2, hDigit2, hnone]
  | case10 x h hbound c hAlpha hDigit hParen hClose ts hrec ih =>
    have hcons : (bytes.drop x).map Char.ofNat
        = Char.ofNat bytes[x] :: (bytes.drop (x + 1)).map Char.ofNat := by
      rw [List.drop_eq_getElem_cons h, List.map_cons]
    rw [hrec] at ih
    have hsome := elim_eq_ok ih.symm
    rw [List.map_drop] at hsome
    rw [tokRunB.eq_def]
    have hClose2 : Char.ofNat bytes[x] = ')' := hClose
    have hParen2 : ¬ Char.ofNat bytes[x] = '(' := hParen
    simp only [dif_pos h, if_pos hbound, if_neg hAlpha, if_neg hDigit, if_neg hParen2,
      hClose2, if_pos rfl, hrec]
    rw [hcons, hClose2]
    have hAlpha2 : ¬ (')' : Char).isAlpha = true := hClose2 ▸ hAlpha
    have hDigit2 : ¬ (')' : Char).isDigit = true := hClose2 ▸ hDigit
    have hParen3 : ¬ (')' : Char) = '(' := hClose2 ▸ hParen
    simp [tokenizerRun, hAlpha2, hDigit2, hParen3, hsome]
  | case11 x h hbound c hAlpha hDigit hParen hClose hnotok ih =>
    have hcons : (bytes.drop x).map Char.ofNat
        = Char.ofNat bytes[x] :: (bytes.drop (x + 1)).map Char.ofNat := by
      rw [List.drop_eq_getElem_cons h, List.map_cons]
    rw [tokRunB.eq_def]
    have hClose2 : Char.ofNat bytes[x] = ')' := hClose
    have hParen2 : ¬ Char.ofNat bytes[x] = '(' := hParen
    simp only [dif_pos h, if_pos hbound, if_neg hAlpha, if_neg hDigit, if_neg hParen2,
      hClose2, if_pos rfl]
    rw [hcons, hClose2]
    have hAlpha2 : ¬ (')' : Char).isAlpha = true := hClose2 ▸ hAlpha
    have hDigit2 : ¬ (')' : Char).isDigit = true := hClose2 ▸ hDigit
    have hParen3 : ¬ (')' : Char) = '(' := hClose2 ▸ hParen
    cases hres : tokRunB bytes (x + 1) with
    | ok ts2 => exact absurd hres (fun hc => hnotok ts2 hc)
    | slicePanic => exact absurd hres (tokRunB_ascii_no_slice bytes hb _)
    | overflowPanic =>
      rw [hres] at ih
      have hnone := elim_eq_overflow ih.symm
      rw [List.map_drop] at hnone
      simp [tokenizerRun, hAlpha2, hDigit2, hParen3, hnone]
  | case12 x h hbound c hAlpha hDigit hParen hClose hComma ts hrec ih =>
    have hcons : (bytes.drop x).map Char.ofNat
        = Char.ofNat bytes[x] :: (bytes.drop (x + 1)).map Char.ofNat := by
      rw [List.drop_eq_getElem_cons h, List.map_cons]
    rw [hrec] at ih
    have hsome := elim_eq_ok ih.symm
    rw [List.map_drop] at hsome
    rw [tokRunB.eq_def]
    have hComma2 : Char.ofNat bytes[x] = ',' := hComma
    have hParen2 : ¬ Char.ofNat bytes[x] = '(' := hParen
    have hClose2 : ¬ Char.ofNat bytes[x] = ')' := hClose
    simp only [dif_pos h, if_pos hbound, if_neg hAlpha, if_neg hDigit, if_neg hParen2,
      if_neg hClose2, hComma2, if_pos rfl, hrec]
    rw [hcons, hComma2]
    have hAlpha2 : ¬ (',' : Char).isAlpha = true := hComma2 ▸ hAlpha
    have hDigit2 : ¬ (',' : Char).isDigit = true := hComma2 ▸ hDigit
    have hParen3 : ¬ (',' : Char) = '(' := hComma2 ▸ hParen
    have hClose3 : ¬ (',' : Char) = ')' := hComma2 ▸ hClose
    simp [tokenizerRun, hAlpha2, hDigit2, hParen3, hClose3, hsome]
  | case13 x h hbound c hAlpha hDigit hParen hClose hComma hnotok ih =>
    have hcons : (bytes.drop x).map Char.ofNat
        = Char.ofNat bytes[x] :: (bytes.drop (x + 1)).map Char.ofNat := by
      rw [List.drop_eq_getElem_cons h, List.map_cons]
    rw [tokRunB.eq_def]
    have hComma2 : Char.ofNat bytes[x] = ',' := hComma
    have hParen2 : ¬ Char.ofNat bytes[x] = '(' := hParen
    have hClose2 : ¬ Char.ofNat bytes[x] = ')' := hClose
    simp only [dif_pos h, if_pos hbound, if_neg hAlpha, if_neg hDigit, if_neg hParen2,
      if_neg hClose2, hComma2, if_pos rfl]
    rw [hcons, hComma2]
    have hAlpha2 : ¬ (',' : Char).isAlpha = true := hComma2 ▸ hAlpha
    have hDigit2 : ¬ (',' : Char).isDigit = true := hComma2 ▸ hDigit
    have hParen3 : ¬ (',' : Char) = '(' := hComma2 ▸ hParen
    have hClose3 : ¬ (',' : Char) = ')' := hComma2 ▸ hClose
    cases hres : tokRunB bytes (x + 1) with
    | ok ts2 => exact absurd hres (fun hc => hnotok ts2 hc)
    | slicePanic => exact absurd hres (tokRunB_ascii_no_slice bytes hb _)
    | overflowPanic =>
      rw [hres] at ih
      have hnone := elim_eq_overflow ih.symm
      rw [List.map_drop] at hnone
      simp [tokenizerRun, hAlpha2, hDigit2, hParen3, hClose3, hnone]
  | case14 x h hbound c hAlpha hDigit hParen hClose hComma ih =>
    have hcons : (bytes.drop x).map Char.ofNat
        = Char.ofNat bytes[x] :: (bytes.drop (x + 1)).map Char.ofNat := by
      rw [List.drop_eq_getElem_cons h, List.map_cons]
    rw [tokRunB.eq_def]
    simp only [dif_pos h, if_pos hbound, if_neg hAlpha, if_neg hDigit, if_neg hParen,
      if_neg hClose, if_neg hComma]
    rw [hcons]
    have hAlpha2 : ¬ (Char.ofNat bytes[x]).isAlpha = true := hAlpha
    have hDigit2 : ¬ (Char.ofNat bytes[x]).isDigit = true := hDigit
    have hParen2 : ¬ Char.ofNat bytes[x] = '(' := hParen
    have hClose2 : ¬ Char.ofNat bytes[x] = ')' := hClose
    have hComma2 : ¬ Char.ofNat bytes[x] = ',' := hComma
    rw [show tokenizerRun (Char.ofNat bytes[x] :: (bytes.drop (x + 1)).map Char.ofNat)
        = tokenizerRun ((bytes.drop (x + 1)).map Char.ofNat) from by
      simp [tokenizerRun, hAlpha2, hDigit2, hParen2, hClose2, hComma2]]
    exact ih
  | case15 x h hbound =>
    have b1 := isCharBoundary_ascii bytes hb x (by omega)
    have b2 := isCharBoundary_ascii bytes hb (x + 1) (by omega)
    simp [b1, b2] at hbound
  | case16 x h =>
    rw [tokRunB.eq_def]
    simp only [dif_neg h]
    rw [List.drop_eq_nil_of_le (by omega)]
    simp [tokenizerRun]

/-! ## Claims -/

/-- Claim C1: generating the single statement `Print [Integer 3, Text "hi"]`
produces an include section that is exactly the streaming-output include
`#include <iostream>` and a body line emitting `3` and `hi` in order with no
separator between the values, terminated by `std::endl`; moreover, for every
statement list each include directive appears in the include section at most
once, and a list of two `Print` statements yields the `<iostream>` include
exactly once. -/
theorem claim_C1 :
    (generate [ StmtType.print [ UserType.int 3, UserType.string "hi" ] ]
      = "#include <iostream>\n\nint main() \x7b\nstd::cout<<3<<hi<<std::endl;\n\x7d")
    ∧ genIncludes [ StmtType.print [ UserType.int 3, UserType.string "hi" ] ] = iosInc
    ∧ (∀ stmts : List StmtType,
        countOccur iosInc.data (genIncludes stmts).data ≤ 1 ∧
        countOccur strInc.data (genIncludes stmts).data ≤ 1)
    ∧ (∀ vs1 vs2 : List UserType,
        countOccur iosInc.data
          (genIncludes [ StmtType.print vs1, StmtType.print vs2 ]).data = 1) := by
  refine ⟨by decide, by decide, ?_, ?_⟩
  · intro stmts
    exact goodInc_count_le_one _ (genIncludes_good stmts)
  · intro vs1 vs2
    have h : genIncludes [ StmtType.print vs1, StmtType.print vs2 ]
        = includeDir (includeDir "" "<iostream>") "<iostream>" := rfl
    rw [h]
    decide

/-- Claim C2: for every `Let` statement with a Text-literal key, a Text value
yields the `<string>` include and the declaration `std::string key=value;`
with the value text spliced verbatim (not re-quoted or escaped), while an
Integer value yields `int key=value;` with an empty include section (no extra
include). -/
theorem claim_C2 :
    (∀ k v : String,
      generate [ StmtType.letStmt (TokenType.userType (UserType.string k))
          (TokenType.userType (UserType.string v)) ]
        = "#include <string>\n" ++ "\n" ++
            ("int main() \x7b\n" ++ "std::string " ++ k ++ "=" ++ v ++ ";\n" ++ "\x7d")
      ∧ genIncludes [ StmtType.letStmt (TokenType.userType (UserType.string k))
          (TokenType.userType (UserType.string v)) ] = strInc)
    ∧ (∀ (k : String) (n : Int),
      generate [ StmtType.letStmt (TokenType.userType (UserType.string k))
          (TokenType.userType (UserType.int n)) ]
        = "" ++ "\n" ++
            ("int main() \x7b\n" ++ "int " ++ k ++ "=" ++ toString n ++ ";\n" ++ "\x7d")
      ∧ genIncludes [ StmtType.letStmt (TokenType.userType (UserType.string k))
          (TokenType.userType (UserType.int n)) ] = "") :=
  ⟨fun _ _ => ⟨rfl, rfl⟩, fun _ _ => ⟨rfl, rfl⟩⟩

/-- Claim C3: tokenizing `print(1,2)` yields exactly the token sequence
PrintKeyword, OpenParen, Literal(Integer 1), Comma, Literal(Integer 2),
CloseParen, in that order, with no other tokens. -/
theorem claim_C3 :
    tokenizerRun "print(1,2)".data
      = some [ TokenType.print, TokenType.openParen,
          TokenType.userType (UserType.int 1), TokenType.comma,
          TokenType.userType (UserType.int 2), TokenType.closeParen ] := by
  simp [tokenizerRun, keywordToken, digitsToNat, i32Max, String.data]

/-- Counterexample to claim C4 as stated: tokenizing `pr!int` yields the two
Text tokens `pr` and `int` — the alphabetic run IS split at the dropped
character, not lexed as one identifier-or-keyword token. -/
theorem claim_C4_counterexample :
    tokenizerRun "pr!int".data
      = some [ TokenType.userType (UserType.string "pr"),
          TokenType.userType (UserType.string "int") ]
    ∧ (tokenizerRun "pr!int".data).map List.length ≠ some 1 := by
  refine ⟨?_, ?_⟩
  · simp [tokenizerRun, keywordToken, String.data]
  · simp [tokenizerRun, keywordToken, String.data]

/-- Claim C4 (amended): tokenizing `pr!int` drops the unrecognized `!`
without crashing, but the alphabetic run is split at the dropped character:
the result is the two separate Text tokens `pr` and `int`, which are not
re-joined into a single identifier across the dropped character. -/
theorem claim_C4 :
    tokenizerRun "pr!int".data
      = some [ TokenType.userType (UserType.string "pr"),
          TokenType.userType (UserType.string "int") ] := by
  simp [tokenizerRun, keywordToken, String.data]

/-- Claim C5: parsing the token sequence of `print()` — PrintKeyword,
OpenParen, CloseParen — succeeds without error and yields exactly one
statement, `Print []`: an empty argument list is valid. -/
theorem claim_C5 :
    tokenizerRun "print()".data
      = some [ TokenType.print, TokenType.openParen, TokenType.closeParen ]
    ∧ parserRun [ TokenType.print, TokenType.openParen, TokenType.closeParen ]
      = (3, [ StmtType.print [] ], []) := by
  refine ⟨?_, ?_⟩
  · simp [tokenizerRun, keywordToken, String.data]
  · simp [parserRun, parserRunAux, parseStmt, parseValues, errToList]

/-- Claim C6: parsing the token sequence of `let 5 to x` (Integer-literal
key) reports exactly the error string "Expected variable name after 'let'",
appends no statement for that attempt, and the run does not abort: the
failing `parse_stmt` leaves the cursor at index 1 and the driver continues
from there, consuming the remaining tokens. -/
theorem claim_C6 :
    tokenizerRun "let 5 to x".data
      = some [ TokenType.letKw, TokenType.userType (UserType.int 5), TokenType.to,
          TokenType.userType (UserType.string "x") ]
    ∧ parseStmt [ TokenType.letKw, TokenType.userType (UserType.int 5), TokenType.to,
          TokenType.userType (UserType.string "x") ] 0
      = (1, none, ParserError.err "Expected variable name after 'let'")
    ∧ parserRun [ TokenType.letKw, TokenType.userType (UserType.int 5), TokenType.to,
          TokenType.userType (UserType.string "x") ]
      = (4, [], [ "Expected variable name after 'let'" ]) := by
  refine ⟨?_, ?_, ?_⟩
  · simp [tokenizerRun, keywordToken, digitsToNat, i32Max, String.data]
  · simp [parseStmt]
  · simp [parserRun, parserRunAux, parseStmt, parseValues, errToList]

/-- Claim C7: for every token sequence the parser produces at most as many
statements as there are PrintKeyword plus LetKeyword tokens, and every token
that is neither `print` nor `let` at a statement-start position is skipped
silently: no statement, no error report. -/
theorem claim_C7 :
    (∀ tokens : List TokenType,
      (parserRun tokens).2.1.length
        ≤ tokens.count TokenType.print + tokens.count TokenType.letKw)
    ∧ (∀ (tokens : List TokenType) (i : Nat) (t : TokenType),
        tokens[i]? = some t → t ≠ TokenType.print → t ≠ TokenType.letKw →
          parseStmt tokens i = (i + 1, none, ParserError.ok)) := by
  refine ⟨?_, ?_⟩
  · intro tokens
    have h := parserRunAux_count tokens 0 [] []
    simpa [parserRun, countP_isStmtKeyword] using h
  · intro tokens i t ht hp hl
    obtain ⟨hlt, hget⟩ := List.getElem?_eq_some_iff.mp ht
    subst hget
    exact parseStmt_skip tokens i hlt hp hl

/-- Witness for claim C7 at the concrete one-token sequence `[Comma]`. -/
theorem claim_C7_witness :
    (parserRun [ TokenType.comma ]).2.1.length
      ≤ [ TokenType.comma ].count TokenType.print + [ TokenType.comma ].count TokenType.letKw
    ∧ parseStmt [ TokenType.comma ] 0 = (1, none, ParserError.ok) :=
  ⟨claim_C7.1 [ TokenType.comma ],
   claim_C7.2 [ TokenType.comma ] 0 TokenType.comma rfl (by decide) (by decide)⟩

/-- Counterexample to claim C8 as stated: `a9999999999` contains the maximal
digit run `9999999999`, which exceeds `i32` range, yet tokenization succeeds
(the run continues an identifier, so the numeric branch never parses it). -/
theorem claim_C8_counterexample :
    "9999999999".data ∈ textualDigitRuns "a9999999999".data
    ∧ i32Max < digitsToNat "9999999999".data
    ∧ tokenizerRun "a9999999999".data
      = some [ TokenType.userType (UserType.string "a9999999999") ] := by
  refine ⟨?_, ?_, ?_⟩
  · simp [textualDigitRuns, String.data]
  · simp [digitsToNat, i32Max, String.data]
  · simp [tokenizerRun, keywordToken, String.data]

/-- Claim C8 (amended): for every input of single-byte (ASCII) characters —
the domain on which the character-level model provably agrees with the
byte-level tokenizer, third conjunct; inputs containing multi-byte
characters panic in the slicer instead, see claim C10 — the tokenizer
succeeds exactly when every digit run reached by its numeric branch (every
maximal digit run that starts a token rather than continuing an identifier)
parses within 32-bit signed range, and on success it emits
`Literal(Integer n)` for exactly those runs in order; if such a run exceeds
the range, tokenization fails fatally (the overflow panic branch is reached)
and produces no token list. -/
theorem claim_C8 :
    (∀ l : List Char, (∀ ch ∈ l, ch.toNat < 128) →
      ((tokenizerRun l).isSome = true ↔ ∀ r ∈ numericLexedRuns l, digitsToNat r ≤ i32Max))
    ∧ (∀ (l : List Char) (ts : List TokenType), (∀ ch ∈ l, ch.toNat < 128) →
        tokenizerRun l = some ts →
          ts.filterMap intTokenValue
            = (numericLexedRuns l).map (fun r => ((digitsToNat r : Nat) : Int)))
    ∧ (∀ bytes : List Nat, (∀ b ∈ bytes, b < 128) →
        tokRunB bytes 0
          = (tokenizerRun (bytes.map Char.ofNat)).elim
              TokResult.overflowPanic TokResult.ok) := by
  refine ⟨fun l _ => tokenizerRun_isSome_iff l, fun l ts _ h => tokenizerRun_ints l ts h, ?_⟩
  intro bytes hb
  simpa using tokRunB_ascii_agrees bytes hb 0

/-- Witness for claim C8 at the concrete ASCII input `1,2`. -/
theorem claim_C8_witness :
    List.filterMap intTokenValue
        [ TokenType.userType (UserType.int 1), TokenType.comma,
          TokenType.userType (UserType.int 2) ]
      = (numericLexedRuns "1,2".data).map (fun r => ((digitsToNat r : Nat) : Int)) :=
  claim_C8.2.1 "1,2".data
    [ TokenType.userType (UserType.int 1), TokenType.comma,
      TokenType.userType (UserType.int 2) ]
    (by decide)
    (by simp [tokenizerRun, keywordToken, digitsToNat, i32Max, String.data])

/-- Claim C9: the parser cursor never decreases across `parse_stmt`; any
`parse_stmt` call with at least one token remaining advances the cursor by at
least one; consequently the run loop terminates (the embedding is a total
function), stops only once the cursor has reached the end of the input, and
returns immediately whenever the cursor is at or past the end. -/
theorem claim_C9 (tokens : List TokenType) (i j k : Nat) (stmts : List StmtType)
    (errs : List String) (h : i < tokens.length) (hk : tokens.length ≤ k) :
    j ≤ (parseStmt tokens j).1
    ∧ i < (parseStmt tokens i).1
    ∧ tokens.length ≤ (parserRun tokens).1
    ∧ parserRunAux tokens k stmts errs = (k, stmts, errs) := by
  refine ⟨parseStmt_fst_le tokens j, parseStmt_fst_lt tokens i h, ?_, ?_⟩
  · simpa [parserRun] using parserRunAux_length_le_fst tokens 0 [] []
  · rw [parserRunAux]
    simp
    omega

/-- Witness for claim C9 at the concrete one-token sequence `[Comma]`. -/
theorem claim_C9_witness :
    0 ≤ (parseStmt [ TokenType.comma ] 0).1
    ∧ 0 < (parseStmt [ TokenType.comma ] 0).1
    ∧ [ TokenType.comma ].length ≤ (parserRun [ TokenType.comma ]).1
    ∧ parserRunAux [ TokenType.comma ] 5 [] [] = (5, [], []) :=
  claim_C9 [ TokenType.comma ] 0 0 5 [] [] (by decide) (by decide)

/-- Claim C10: the tokenizer peeks via one-byte slices bounds-checked against
the byte length, so tokenization never fails from slicing on inputs whose
bytes are all single-byte (ASCII, below 128); on the two-byte UTF-8 input
`é` (bytes 195, 169) the slice end falls inside the character and
tokenization panics instead of returning normally. -/
theorem claim_C10 :
    (∀ bytes : List Nat, (∀ b ∈ bytes, b < 128) → tokRunB bytes 0 ≠ TokResult.slicePanic)
    ∧ tokRunB [ 195, 169 ] 0 = TokResult.slicePanic := by
  refine ⟨fun bytes hb => tokRunB_ascii_no_slice bytes hb 0, ?_⟩
  simp [tokRunB, isCharBoundary]

/-- Witness for claim C10 at the concrete ASCII byte input `hi`. -/
theorem claim_C10_witness :
    tokRunB [ 104, 105 ] 0 ≠ TokResult.slicePanic :=
  claim_C10.1 [ 104, 105 ] (by decide)

end Zynk
